import Mathlib

/-!
Verification of the policy normalization, classification, aggregation and
drift-comparison engine.

The definitions below are a shallow embedding of the Python sources
`policy-parser.py` (classify_action, expand_actions, parse_policies,
aggregate_to_matrix) and `drift.py` (compare_matrices).  Python dicts keyed
by the (Principal, PrincipalType, Service) triple are modelled as
association lists in insertion order; Python sets are modelled as
duplicate-free lists built by add-if-absent; the dynamically typed
statement fields are modelled by explicit sum types capturing the
string-or-list alternatives the code coerces.
-/

/-- Characters accepted by the service-name part of the classifier's
regular expression `([a-z0-9-]+):(.*)`. -/
def svcChar (c : Char) : Bool :=
  (decide ('a' ≤ c) && decide (c ≤ 'z')) || (decide ('0' ≤ c) && decide (c ≤ '9')) || (c == '-')

/-- `re.match(r"([a-z0-9-]+):(.*)", action)`: the greedy class run must be
nonempty and be followed by a colon; the second group `.*` stops at the
first newline, and `re.match` does not require the match to span the whole
string. -/
def splitAction (action : String) : Option (String × String) :=
  let cs := action.data
  let svc := cs.takeWhile svcChar
  match cs.drop svc.length with
  | ':' :: rest =>
      if svc.isEmpty then none
      else some (String.mk svc, String.mk (rest.takeWhile (fun c => c != '\n')))
  | _ => none

/-- `p` is a prefix of `s` (Python `str.startswith`). -/
def sw : List Char → List Char → Bool
  | [], _ => true
  | _ :: _, [] => false
  | p :: ps, c :: cs => p == c && sw ps cs

/-- `op.startswith(tuple)` / `any(op.startswith(p) for p in ...)`. -/
def swAny (op : String) (ps : List String) : Bool :=
  ps.any (fun p => sw p.data op.data)

def readVerbs : List String := ["Get", "Head", "Read"]

def listVerbs : List String := ["List", "Describe"]

def writeVerbs : List String := ["Create", "Put", "Delete", "Update", "Start", "Stop", "Invoke"]

def tagVerbs : List String := ["Tag", "Untag"]

def permVerbs : List String :=
  ["PassRole", "Attach", "Detach", "CreatePolicy", "PutPolicy", "SetPolicy",
   "AddUserToGroup", "RemoveUserFromGroup"]

/-- The branch chain of `classify_action` after the service/operation split. -/
def classifyOp (service op : String) : String × String :=
  if op = "*" then (service, "Admin")
  else if swAny op readVerbs then (service, "Read")
  else if swAny op listVerbs then (service, "List")
  else if swAny op writeVerbs then (service, "Write")
  else if swAny op tagVerbs then (service, "Tagging")
  else if swAny op permVerbs then (service, "PermissionsManagement")
  else (service, "Read")

/-- `classify_action` from policy-parser.py. -/
def classify_action (action : String) : String × String :=
  if action = "*" then ("ALL_SERVICES", "Admin")
  else
    match splitAction action with
    | none => ("UNKNOWN", "Unknown")
    | some (service, op) => classifyOp service op

lemma sw_eq_true_iff (p s : List Char) : sw p s = true ↔ ∃ t, s = p ++ t := by
  induction p generalizing s with
  | nil => simp [sw]
  | cons a ps ih =>
      cases s with
      | nil => simp [sw]
      | cons c cs =>
          simp only [sw, Bool.and_eq_true, beq_iff_eq, ih, List.cons_append, List.cons.injEq]
          constructor
          · rintro ⟨rfl, t, rfl⟩
            exact ⟨t, rfl, rfl⟩
          · rintro ⟨t, rfl, rfl⟩
            exact ⟨rfl, t, rfl⟩

lemma sw_comparable {p q s : List Char} (hp : sw p s = true) (hq : sw q s = true) :
    sw p q = true ∨ sw q p = true := by
  induction s generalizing p q with
  | nil =>
      cases p with
      | nil => left; rfl
      | cons a ps => simp [sw] at hp
  | cons c cs ih =>
      cases p with
      | nil => left; rfl
      | cons a ps =>
          cases q with
          | nil => right; rfl
          | cons b qs =>
              simp only [sw, Bool.and_eq_true, beq_iff_eq] at hp hq ⊢
              obtain ⟨rfl, hp⟩ := hp
              obtain ⟨rfl, hq⟩ := hq
              rcases ih hp hq with h | h
              · exact Or.inl ⟨rfl, h⟩
              · exact Or.inr ⟨rfl, h⟩

lemma swAny_writeVerbs_not_read {op : String} (h : swAny op writeVerbs = true) :
    swAny op readVerbs = false := by
  rw [swAny, List.any_eq_true] at h
  obtain ⟨p, hp, hsw⟩ := h
  by_contra hr
  rw [swAny, ← ne_eq, ne_eq, Bool.not_eq_false, List.any_eq_true] at hr
  obtain ⟨q, hq, hswq⟩ := hr
  have hcmp := sw_comparable hsw hswq
  have : ∀ p ∈ writeVerbs, ∀ q ∈ readVerbs,
      sw p.data q.data = false ∧ sw q.data p.data = false := by decide
  obtain ⟨h1, h2⟩ := this p hp q hq
  rcases hcmp with h | h
  · rw [h1] at h; exact Bool.false_ne_true h
  · rw [h2] at h; exact Bool.false_ne_true h

lemma swAny_writeVerbs_not_list {op : String} (h : swAny op writeVerbs = true) :
    swAny op listVerbs = false := by
  rw [swAny, List.any_eq_true] at h
  obtain ⟨p, hp, hsw⟩ := h
  by_contra hr
  rw [swAny, ← ne_eq, ne_eq, Bool.not_eq_false, List.any_eq_true] at hr
  obtain ⟨q, hq, hswq⟩ := hr
  have hcmp := sw_comparable hsw hswq
  have : ∀ p ∈ writeVerbs, ∀ q ∈ listVerbs,
      sw p.data q.data = false ∧ sw q.data p.data = false := by decide
  obtain ⟨h1, h2⟩ := this p hp q hq
  rcases hcmp with h | h
  · rw [h1] at h; exact Bool.false_ne_true h
  · rw [h2] at h; exact Bool.false_ne_true h

lemma swAny_writeVerbs_ne_star {op : String} (h : swAny op writeVerbs = true) :
    op ≠ "*" := by
  intro he
  subst he
  exact absurd h (by decide)

/-- C1: the classifier's branch chain is evaluated in fixed priority order
with first match winning: any operation beginning with one of the Write
verb prefixes reaches the Write branch before the PermissionsManagement
verb list is consulted, so `classify("iam:CreatePolicy")` and
`classify("iam:PutPolicy")` are `("iam", "Write")` — they never reach the
PermissionsManagement rule — while `classify("iam:PassRole")`, which
matches no earlier prefix, is `("iam", "PermissionsManagement")`. -/
theorem classify_write_shadows_permissions :
    classify_action "iam:CreatePolicy" = ("iam", "Write")
    ∧ classify_action "iam:PutPolicy" = ("iam", "Write")
    ∧ classify_action "iam:PassRole" = ("iam", "PermissionsManagement")
    ∧ ∀ service op : String, swAny op writeVerbs = true →
        classifyOp service op = (service, "Write") := by
  refine ⟨by decide, by decide, by decide, ?_⟩
  intro service op h
  rw [classifyOp, if_neg (swAny_writeVerbs_ne_star h)]
  rw [swAny_writeVerbs_not_read h, swAny_writeVerbs_not_list h, h]
  rfl

/-- C1 witness: instantiation of the universally quantified branch-order
fact at the concrete operation `CreateBucket`. -/
theorem classify_write_shadows_permissions_app :
    classifyOp "s3" "CreateBucket" = ("s3", "Write") :=
  classify_write_shadows_permissions.2.2.2 "s3" "CreateBucket" (by decide)

/-- C8: the classifier is total; an input that is not the literal `"*"` and
does not match the `service:operation` shape — such as `"not-an-action"` —
maps to the sentinel `("UNKNOWN", "Unknown")`. -/
theorem classify_sentinel_on_unparseable :
    classify_action "not-an-action" = ("UNKNOWN", "Unknown")
    ∧ ∀ a : String, a ≠ "*" → splitAction a = none →
        classify_action a = ("UNKNOWN", "Unknown") := by
  refine ⟨by decide, ?_⟩
  intro a hne hsplit
  rw [classify_action, if_neg hne, hsplit]

/-- C8 witness: the sentinel theorem applied at `"not-an-action"`. -/
theorem classify_sentinel_on_unparseable_app :
    classify_action "not-an-action" = ("UNKNOWN", "Unknown") :=
  classify_sentinel_on_unparseable.2 "not-an-action" (by decide) (by decide)


/-! ## Data model for the normalizer and the aggregator

Python sets (`AllowedLevels`, `DeniedLevels`, `Sources`) are modelled as
duplicate-free lists built by add-if-absent: the code only ever observes a
set through membership, size and `sorted(...)`, and all three agree with
this representation. -/

/-- A flat record emitted by `parse_policies`, one per (statement, action)
pair.  The `condition` field is the statement's opaque Condition structure,
modelled as an association list. -/
structure ActionRecord where
  principal : String
  principalType : String
  policyName : String
  policyType : String
  effect : String
  action : String
  service : String
  accessLevel : String
  resources : List String
  condition : List (String × String)
deriving DecidableEq, Repr

/-- The aggregation key `(row["Principal"], row["PrincipalType"], row["Service"])`. -/
abbrev Key := String × String × String

def keyOf (r : ActionRecord) : Key := (r.principal, r.principalType, r.service)

/-- Python `set.add`: add-if-absent on the duplicate-free list model. -/
def sadd (x : String) (l : List String) : List String :=
  if x ∈ l then l else l ++ [x]

/-- The mutable per-key accumulator of `aggregate_to_matrix` before
finalization.  The Resources list keeps duplicates and insertion order,
exactly as `list.extend` does. -/
structure RawEntry where
  principal : String
  principalType : String
  service : String
  allowedLevels : List String
  deniedLevels : List String
  resources : List String
  hasExplicitDeny : Bool
  sources : List String
deriving DecidableEq, Repr

/-- The blank accumulator created on first sight of a key, built from the
record's own fields as in the source. -/
def newEntry (r : ActionRecord) : RawEntry :=
  { principal := r.principal
    principalType := r.principalType
    service := r.service
    allowedLevels := []
    deniedLevels := []
    resources := []
    hasExplicitDeny := false
    sources := [] }

/-- The same blank accumulator expressed through the key alone. -/
def initEntry (k : Key) : RawEntry :=
  { principal := k.1
    principalType := k.2.1
    service := k.2.2
    allowedLevels := []
    deniedLevels := []
    resources := []
    hasExplicitDeny := false
    sources := [] }

/-- One record folded into its entry: the if/elif on Effect, then the
unconditional Resources extend and Sources add. -/
def updEntry (e : RawEntry) (r : ActionRecord) : RawEntry :=
  let e1 :=
    if r.effect = "Allow" then
      { e with allowedLevels := sadd r.accessLevel e.allowedLevels }
    else if r.effect = "Deny" then
      { e with deniedLevels := sadd r.accessLevel e.deniedLevels, hasExplicitDeny := true }
    else e
  { e1 with resources := e1.resources ++ r.resources, sources := sadd r.policyName e1.sources }

/-- First-match lookup in the insertion-ordered association list that
models the Python dict `matrix`. -/
def lookupE (k : Key) : List (Key × RawEntry) → Option RawEntry
  | [] => none
  | p :: m => if p.1 = k then some p.2 else lookupE k m

/-- One iteration of the aggregation loop: get-or-create the entry for the
record's key, then fold the record in. -/
def stepMatrix (m : List (Key × RawEntry)) (r : ActionRecord) : List (Key × RawEntry) :=
  match lookupE (keyOf r) m with
  | some _ => m.map (fun p => if p.1 = keyOf r then (p.1, updEntry p.2 r) else p)
  | none => m ++ [(keyOf r, updEntry (newEntry r) r)]

/-- The whole first pass of `aggregate_to_matrix`. -/
def aggRaw (l : List ActionRecord) : List (Key × RawEntry) :=
  l.foldl stepMatrix []

/-- One finalized row of the service access matrix. -/
structure MatrixRow where
  principal : String
  principalType : String
  service : String
  accessLevels : String
  resourceScope : String
  hasExplicitDeny : Bool
  sources : String
deriving DecidableEq, Repr

/-- Finalization of one accumulator: effective levels as set difference,
resource deduplication, the three-way scope classification, and the
deterministic sorted renderings (`sorted` on a set of strings is
lexicographic ascending). -/
def finalizeEntry (e : RawEntry) : MatrixRow :=
  let effective := e.allowedLevels.filter (fun lvl => decide (lvl ∉ e.deniedLevels))
  let uniq := e.resources.dedup
  { principal := e.principal
    principalType := e.principalType
    service := e.service
    accessLevels :=
      if effective = [] then "None"
      else String.intercalate "," (List.insertionSort (· ≤ ·) effective)
    resourceScope :=
      if "*" ∈ uniq ∧ uniq.length = 1 then "AllResources"
      else if "*" ∈ uniq then "Mixed"
      else "Scoped"
    hasExplicitDeny := e.hasExplicitDeny
    sources := String.intercalate ";" (List.insertionSort (· ≤ ·) e.sources) }

/-- `aggregate_to_matrix` from policy-parser.py. -/
def aggregate_to_matrix (l : List ActionRecord) : List MatrixRow :=
  (aggRaw l).map (fun p => finalizeEntry p.2)

/-! ## Data model for the statement normalizer -/

/-- A JSON field that the code accepts either as a bare string or as a
list of strings. -/
inductive StrOrList where
  | one : String → StrOrList
  | many : List String → StrOrList
deriving DecidableEq, Repr

/-- `expand_actions` from policy-parser.py; `none` models an absent
Action key, for which the caller already supplies the default `[]`. -/
def expand_actions : Option StrOrList → List String
  | none => []
  | some (.one s) => [s]
  | some (.many l) => l

/-- `stmt.get("Resource", ["*"])` followed by the bare-string coercion. -/
def coerceResources : Option StrOrList → List String
  | none => ["*"]
  | some (.one s) => [s]
  | some (.many l) => l

/-- One policy statement with its optional fields. -/
structure Stmt where
  effect : Option String
  action : Option StrOrList
  resource : Option StrOrList
  condition : Option (List (String × String))
deriving DecidableEq, Repr

/-- The `Statement` field of a policy document: a single object or a list. -/
inductive StmtField where
  | single : Stmt → StmtField
  | list : List Stmt → StmtField
deriving DecidableEq, Repr

/-- One policy attached to a principal. -/
structure Policy where
  policyName : String
  policyType : String
  statement : Option StmtField
deriving DecidableEq, Repr

/-- `pol.get("PolicyDocument", {}).get("Statement", [])` with the
single-object-to-list coercion. -/
def stmtsOf (p : Policy) : List Stmt :=
  match p.statement with
  | none => []
  | some (.single s) => [s]
  | some (.list l) => l

/-- One principal with its policies. -/
structure PrincipalRecord where
  principal : String
  principalType : String
  policies : List Policy
deriving DecidableEq, Repr

/-- The inner loop of `parse_policies`: the records one statement
contributes, one per expanded action. -/
def recordsOfStmt (principal principalType pname ptype : String) (stmt : Stmt) :
    List ActionRecord :=
  (expand_actions stmt.action).map fun act =>
    let c := classify_action act
    { principal := principal
      principalType := principalType
      policyName := pname
      policyType := ptype
      effect := stmt.effect.getD "Allow"
      action := act
      service := c.1
      accessLevel := c.2
      resources := coerceResources stmt.resource
      condition := stmt.condition.getD [] }

/-- `parse_policies` from policy-parser.py. -/
def parse_policies (recs : List PrincipalRecord) : List ActionRecord :=
  recs.flatMap fun rec =>
    rec.policies.flatMap fun pol =>
      (stmtsOf pol).flatMap fun stmt =>
        recordsOfStmt rec.principal rec.principalType pol.policyName pol.policyType stmt

/-! ## Data model for the drift comparator -/

/-- One row of a loaded matrix CSV as `compare_matrices` consumes it: the
three compared fields, all strings as read from the CSV. -/
structure DriftRow where
  accessLevels : String
  resourceScope : String
  hasExplicitDeny : String
deriving DecidableEq, Repr

/-- One emitted drift record. -/
structure DriftRecord where
  principal : String
  principalType : String
  service : String
  changeType : String
  day1 : String
  day2 : String
deriving DecidableEq, Repr

/-- First-match lookup in the association list modelling a loaded matrix. -/
def lookupRow (k : Key) : List (Key × DriftRow) → Option DriftRow
  | [] => none
  | p :: m => if p.1 = k then some p.2 else lookupRow k m

/-- The pipe-joined triple `f"{AccessLevels} | {ResourceScope} | {HasExplicitDeny}"`. -/
def pipeTriple (r : DriftRow) : String :=
  r.accessLevels ++ " | " ++ r.resourceScope ++ " | " ++ r.hasExplicitDeny

/-- The per-key body of the comparison loop. -/
def driftAt (day1 day2 : List (Key × DriftRow)) (k : Key) : Option DriftRecord :=
  match lookupRow k day1, lookupRow k day2 with
  | some r1, none =>
      some { principal := k.1, principalType := k.2.1, service := k.2.2,
             changeType := "Removed", day1 := r1.accessLevels, day2 := "None" }
  | none, some r2 =>
      some { principal := k.1, principalType := k.2.1, service := k.2.2,
             changeType := "Added", day1 := "None", day2 := r2.accessLevels }
  | some r1, some r2 =>
      if r1.accessLevels ≠ r2.accessLevels ∨ r1.resourceScope ≠ r2.resourceScope ∨
          r1.hasExplicitDeny ≠ r2.hasExplicitDeny then
        some { principal := k.1, principalType := k.2.1, service := k.2.2,
               changeType := "Modified", day1 := pipeTriple r1, day2 := pipeTriple r2 }
      else none
  | none, none => none

/-- `set(day1.keys()) | set(day2.keys())`, enumerated without duplicates. -/
def allKeys (day1 day2 : List (Key × DriftRow)) : List Key :=
  (day1.map Prod.fst ++ day2.map Prod.fst).dedup

/-- `compare_matrices` from drift.py. -/
def compare_matrices (day1 day2 : List (Key × DriftRow)) : List DriftRecord :=
  (allKeys day1 day2).filterMap (driftAt day1 day2)

/-! ## Characterization of the aggregation fold -/

/-- The records of the input stream that belong to one aggregation key. -/
def keyedRecs (k : Key) (l : List ActionRecord) : List ActionRecord :=
  l.filter (fun r => decide (keyOf r = k))

/-- Access levels contributed by Allow records, in stream order. -/
def allowedLvls (rs : List ActionRecord) : List String :=
  (rs.filter (fun r => decide (r.effect = "Allow"))).map (fun r => r.accessLevel)

/-- Access levels contributed by Deny records, in stream order. -/
def deniedLvls (rs : List ActionRecord) : List String :=
  (rs.filter (fun r => decide (r.effect = "Deny"))).map (fun r => r.accessLevel)

/-- All resource strings contributed, duplicates kept, in stream order. -/
def resourcesOf (rs : List ActionRecord) : List String :=
  rs.flatMap (fun r => r.resources)

/-- The contributing policy names, in stream order. -/
def sourceNames (rs : List ActionRecord) : List String :=
  rs.map (fun r => r.policyName)

/-- Whether any record carries a Deny effect. -/
def anyDeny (rs : List ActionRecord) : Bool :=
  rs.any (fun r => decide (r.effect = "Deny"))

/-- The accumulator a key ends up with after the whole fold. -/
def entryOf (k : Key) (l : List ActionRecord) : RawEntry :=
  (keyedRecs k l).foldl updEntry (initEntry k)

lemma newEntry_eq (r : ActionRecord) : newEntry r = initEntry (keyOf r) := rfl

lemma mem_sadd (y x : String) (l : List String) : y ∈ sadd x l ↔ y = x ∨ y ∈ l := by
  rw [sadd]
  split_ifs with h
  · constructor
    · exact Or.inr
    · rintro (rfl | hy)
      · exact h
      · exact hy
  · simp [or_comm]

lemma nodup_sadd (x : String) {l : List String} (h : l.Nodup) : (sadd x l).Nodup := by
  rw [sadd]
  split_ifs with hx
  · exact h
  · rw [List.nodup_append]
    exact ⟨h, List.nodup_singleton x, fun a ha hb => hx ((List.mem_singleton.mp hb) ▸ ha)⟩

lemma upd_allowed (e : RawEntry) (r : ActionRecord) :
    (updEntry e r).allowedLevels =
      if r.effect = "Allow" then sadd r.accessLevel e.allowedLevels else e.allowedLevels := by
  simp only [updEntry]
  split_ifs <;> rfl

lemma upd_denied (e : RawEntry) (r : ActionRecord) :
    (updEntry e r).deniedLevels =
      if r.effect = "Deny" then sadd r.accessLevel e.deniedLevels else e.deniedLevels := by
  simp only [updEntry]
  split_ifs with h1 h2 <;> simp_all

lemma upd_hasDeny (e : RawEntry) (r : ActionRecord) :
    (updEntry e r).hasExplicitDeny =
      (e.hasExplicitDeny || decide (r.effect = "Deny")) := by
  simp only [updEntry]
  split_ifs with h1 h2 <;> simp_all

lemma upd_resources (e : RawEntry) (r : ActionRecord) :
    (updEntry e r).resources = e.resources ++ r.resources := by
  simp only [updEntry]
  split_ifs <;> rfl

lemma upd_sources (e : RawEntry) (r : ActionRecord) :
    (updEntry e r).sources = sadd r.policyName e.sources := by
  simp only [updEntry]
  split_ifs <;> rfl

lemma upd_principal (e : RawEntry) (r : ActionRecord) :
    (updEntry e r).principal = e.principal := by
  simp only [updEntry]
  split_ifs <;> rfl

lemma upd_principalType (e : RawEntry) (r : ActionRecord) :
    (updEntry e r).principalType = e.principalType := by
  simp only [updEntry]
  split_ifs <;> rfl

lemma upd_service (e : RawEntry) (r : ActionRecord) :
    (updEntry e r).service = e.service := by
  simp only [updEntry]
  split_ifs <;> rfl

lemma lookupE_map_upd (k : Key) (r : ActionRecord) (m : List (Key × RawEntry)) :
    lookupE k (m.map (fun p => if p.1 = keyOf r then (p.1, updEntry p.2 r) else p)) =
      if k = keyOf r then (lookupE k m).map (fun e => updEntry e r) else lookupE k m := by
  induction m with
  | nil => cases Decidable.em (k = keyOf r) <;> simp_all [lookupE]
  | cons p m ih =>
      by_cases hp : p.1 = keyOf r
      · by_cases hk : k = keyOf r
        · subst hk
          simp [lookupE, hp, ih]
        · have hk' : keyOf r ≠ k := Ne.symm hk
          simp [lookupE, hp, hk', ih, hk]
      · by_cases hpk : p.1 = k
        · have hk : ¬ k = keyOf r := by rw [← hpk]; exact hp
          simp [lookupE, hp, hpk, hk]
        · simp [lookupE, hp, hpk, ih]

lemma lookupE_append_of_some {k : Key} {m₁ : List (Key × RawEntry)} {e : RawEntry}
    (m₂ : List (Key × RawEntry)) (h : lookupE k m₁ = some e) :
    lookupE k (m₁ ++ m₂) = some e := by
  induction m₁ with
  | nil => simp [lookupE] at h
  | cons p m ih =>
      by_cases hp : p.1 = k
      · simp_all [lookupE]
      · simp_all [lookupE]

lemma lookupE_append_of_none {k : Key} {m₁ : List (Key × RawEntry)}
    (m₂ : List (Key × RawEntry)) (h : lookupE k m₁ = none) :
    lookupE k (m₁ ++ m₂) = lookupE k m₂ := by
  induction m₁ with
  | nil => simp
  | cons p m ih =>
      by_cases hp : p.1 = k
      · simp_all [lookupE]
      · simp_all [lookupE]

lemma lookupE_step (m : List (Key × RawEntry)) (r : ActionRecord) (k : Key) :
    lookupE k (stepMatrix m r) =
      if k = keyOf r then some (updEntry ((lookupE k m).getD (newEntry r)) r)
      else lookupE k m := by
  cases h : lookupE (keyOf r) m with
  | some e =>
      simp only [stepMatrix, h]
      rw [lookupE_map_upd k r]
      by_cases hk : k = keyOf r
      · subst hk
        simp [h]
      · simp [hk]
  | none =>
      simp only [stepMatrix, h]
      by_cases hk : k = keyOf r
      · subst hk
        rw [lookupE_append_of_none _ h, h]
        simp [lookupE]
      · cases h2 : lookupE k m with
        | some e => rw [lookupE_append_of_some _ h2]; simp [hk]
        | none =>
            rw [lookupE_append_of_none _ h2]
            simp [lookupE, hk, Ne.symm hk]

lemma keyedRecs_cons (k : Key) (r : ActionRecord) (l : List ActionRecord) :
    keyedRecs k (r :: l) =
      if keyOf r = k then r :: keyedRecs k l else keyedRecs k l := by
  by_cases h : keyOf r = k <;> simp [keyedRecs, List.filter_cons, h]

lemma foldl_step_lookup (l : List ActionRecord) :
    ∀ (m : List (Key × RawEntry)) (k : Key),
    lookupE k (l.foldl stepMatrix m) =
      match lookupE k m with
      | some e => some ((keyedRecs k l).foldl updEntry e)
      | none =>
        match keyedRecs k l with
        | [] => none
        | r :: rs => some ((r :: rs).foldl updEntry (initEntry k)) := by
  induction l with
  | nil =>
      intro m k
      cases h : lookupE k m <;> simp [keyedRecs, h]
  | cons r l ih =>
      intro m k
      rw [List.foldl_cons, ih (stepMatrix m r) k, lookupE_step, keyedRecs_cons]
      by_cases hk : k = keyOf r
      · subst hk
        cases h : lookupE (keyOf r) m with
        | some e => simp [h]
        | none => simp [h, newEntry_eq r]
      · have hk2 : ¬ keyOf r = k := fun h => hk h.symm
        cases h : lookupE k m <;> simp [hk, hk2, h]

/-- The central refinement fact: after the whole fold, a key's accumulator
is exactly the fold of its own records from the blank entry. -/
lemma lookupE_aggRaw (l : List ActionRecord) (k : Key) :
    lookupE k (aggRaw l) =
      if keyedRecs k l = [] then none else some (entryOf k l) := by
  rw [aggRaw, foldl_step_lookup l [] k]
  have h0 : lookupE k ([] : List (Key × RawEntry)) = none := rfl
  rw [h0]
  cases h : keyedRecs k l with
  | nil => simp
  | cons r rs => simp [entryOf, h]

lemma foldl_upd_allowed_mem (rs : List ActionRecord) : ∀ (e : RawEntry) (x : String),
    x ∈ (rs.foldl updEntry e).allowedLevels ↔
      x ∈ e.allowedLevels ∨ x ∈ allowedLvls rs := by
  induction rs with
  | nil => intro e x; simp [allowedLvls]
  | cons r rs ih =>
      intro e x
      rw [List.foldl_cons, ih, upd_allowed]
      by_cases h : r.effect = "Allow"
      · rw [if_pos h, mem_sadd]
        simp [allowedLvls, List.filter_cons, h]
        tauto
      · simp only [if_neg h, allowedLvls, List.filter_cons]
        simp [h, allowedLvls]

lemma foldl_upd_allowed_nodup (rs : List ActionRecord) : ∀ e : RawEntry,
    e.allowedLevels.Nodup → (rs.foldl updEntry e).allowedLevels.Nodup := by
  induction rs with
  | nil => intro e he; exact he
  | cons r rs ih =>
      intro e he
      rw [List.foldl_cons]
      apply ih
      rw [upd_allowed]
      split_ifs
      · exact nodup_sadd _ he
      · exact he

lemma foldl_upd_denied_mem (rs : List ActionRecord) : ∀ (e : RawEntry) (x : String),
    x ∈ (rs.foldl updEntry e).deniedLevels ↔
      x ∈ e.deniedLevels ∨ x ∈ deniedLvls rs := by
  induction rs with
  | nil => intro e x; simp [deniedLvls]
  | cons r rs ih =>
      intro e x
      rw [List.foldl_cons, ih, upd_denied]
      by_cases h : r.effect = "Deny"
      · rw [if_pos h, mem_sadd]
        simp [deniedLvls, List.filter_cons, h]
        tauto
      · simp only [if_neg h, deniedLvls, List.filter_cons]
        simp [h, deniedLvls]

lemma foldl_upd_denied_nodup (rs : List ActionRecord) : ∀ e : RawEntry,
    e.deniedLevels.Nodup → (rs.foldl updEntry e).deniedLevels.Nodup := by
  induction rs with
  | nil => intro e he; exact he
  | cons r rs ih =>
      intro e he
      rw [List.foldl_cons]
      apply ih
      rw [upd_denied]
      split_ifs
      · exact nodup_sadd _ he
      · exact he

lemma foldl_upd_sources_mem (rs : List ActionRecord) : ∀ (e : RawEntry) (x : String),
    x ∈ (rs.foldl updEntry e).sources ↔ x ∈ e.sources ∨ x ∈ sourceNames rs := by
  induction rs with
  | nil => intro e x; simp [sourceNames]
  | cons r rs ih =>
      intro e x
      rw [List.foldl_cons, ih, upd_sources]
      simp only [mem_sadd, sourceNames, List.map_cons, List.mem_cons]
      simp [sourceNames, or_assoc, or_comm, or_left_comm]

lemma foldl_upd_sources_nodup (rs : List ActionRecord) : ∀ e : RawEntry,
    e.sources.Nodup → (rs.foldl updEntry e).sources.Nodup := by
  induction rs with
  | nil => intro e he; exact he
  | cons r rs ih =>
      intro e he
      rw [List.foldl_cons]
      apply ih
      rw [upd_sources]
      exact nodup_sadd _ he

lemma foldl_upd_hasDeny (rs : List ActionRecord) : ∀ e : RawEntry,
    (rs.foldl updEntry e).hasExplicitDeny = (e.hasExplicitDeny || anyDeny rs) := by
  induction rs with
  | nil => intro e; simp [anyDeny]
  | cons r rs ih =>
      intro e
      rw [List.foldl_cons, ih, upd_hasDeny]
      simp [anyDeny, Bool.or_assoc]

lemma foldl_upd_resources (rs : List ActionRecord) : ∀ e : RawEntry,
    (rs.foldl updEntry e).resources = e.resources ++ resourcesOf rs := by
  induction rs with
  | nil => intro e; simp [resourcesOf]
  | cons r rs ih =>
      intro e
      rw [List.foldl_cons, ih, upd_resources]
      simp [resourcesOf]

lemma foldl_upd_principal (rs : List ActionRecord) : ∀ e : RawEntry,
    (rs.foldl updEntry e).principal = e.principal := by
  induction rs with
  | nil => intro e; rfl
  | cons r rs ih => intro e; rw [List.foldl_cons, ih, upd_principal]

lemma foldl_upd_principalType (rs : List ActionRecord) : ∀ e : RawEntry,
    (rs.foldl updEntry e).principalType = e.principalType := by
  induction rs with
  | nil => intro e; rfl
  | cons r rs ih => intro e; rw [List.foldl_cons, ih, upd_principalType]

lemma foldl_upd_service (rs : List ActionRecord) : ∀ e : RawEntry,
    (rs.foldl updEntry e).service = e.service := by
  induction rs with
  | nil => intro e; rfl
  | cons r rs ih => intro e; rw [List.foldl_cons, ih, upd_service]

lemma entry_allowed_mem (k : Key) (l : List ActionRecord) (x : String) :
    x ∈ (entryOf k l).allowedLevels ↔ x ∈ allowedLvls (keyedRecs k l) := by
  rw [entryOf, foldl_upd_allowed_mem]
  simp [initEntry]

lemma entry_allowed_nodup (k : Key) (l : List ActionRecord) :
    (entryOf k l).allowedLevels.Nodup := by
  rw [entryOf]
  exact foldl_upd_allowed_nodup _ _ (by simp [initEntry])

lemma entry_denied_mem (k : Key) (l : List ActionRecord) (x : String) :
    x ∈ (entryOf k l).deniedLevels ↔ x ∈ deniedLvls (keyedRecs k l) := by
  rw [entryOf, foldl_upd_denied_mem]
  simp [initEntry]

lemma entry_denied_nodup (k : Key) (l : List ActionRecord) :
    (entryOf k l).deniedLevels.Nodup := by
  rw [entryOf]
  exact foldl_upd_denied_nodup _ _ (by simp [initEntry])

lemma entry_sources_mem (k : Key) (l : List ActionRecord) (x : String) :
    x ∈ (entryOf k l).sources ↔ x ∈ sourceNames (keyedRecs k l) := by
  rw [entryOf, foldl_upd_sources_mem]
  simp [initEntry]

lemma entry_sources_nodup (k : Key) (l : List ActionRecord) :
    (entryOf k l).sources.Nodup := by
  rw [entryOf]
  exact foldl_upd_sources_nodup _ _ (by simp [initEntry])

lemma entry_hasDeny (k : Key) (l : List ActionRecord) :
    (entryOf k l).hasExplicitDeny = anyDeny (keyedRecs k l) := by
  rw [entryOf, foldl_upd_hasDeny]
  simp [initEntry]

lemma entry_resources (k : Key) (l : List ActionRecord) :
    (entryOf k l).resources = resourcesOf (keyedRecs k l) := by
  rw [entryOf, foldl_upd_resources]
  simp [initEntry]

lemma entry_principal (k : Key) (l : List ActionRecord) :
    (entryOf k l).principal = k.1 := by
  rw [entryOf, foldl_upd_principal]
  rfl

lemma entry_principalType (k : Key) (l : List ActionRecord) :
    (entryOf k l).principalType = k.2.1 := by
  rw [entryOf, foldl_upd_principalType]
  rfl

lemma entry_service (k : Key) (l : List ActionRecord) :
    (entryOf k l).service = k.2.2 := by
  rw [entryOf, foldl_upd_service]
  rfl

/-! ## Keys of the accumulator map -/

lemma lookupE_eq_none_iff (k : Key) (m : List (Key × RawEntry)) :
    lookupE k m = none ↔ k ∉ m.map Prod.fst := by
  induction m with
  | nil => simp [lookupE]
  | cons p m ih =>
      by_cases hp : p.1 = k
      · simp [lookupE, hp]
      · simp [lookupE, hp, ih, Ne.symm hp]

lemma mem_of_lookupE {k : Key} {m : List (Key × RawEntry)} {e : RawEntry}
    (h : lookupE k m = some e) : (k, e) ∈ m := by
  induction m with
  | nil => simp [lookupE] at h
  | cons p m ih =>
      by_cases hp : p.1 = k
      · obtain ⟨k1, e1⟩ := p
        rw [lookupE, if_pos hp] at h
        have he : e1 = e := Option.some.inj h
        have hk : k1 = k := hp
        subst he
        subst hk
        exact List.mem_cons_self _ _
      · rw [lookupE, if_neg hp] at h
        exact List.mem_cons_of_mem _ (ih h)

lemma lookupE_of_mem_nodup {k : Key} {m : List (Key × RawEntry)} {e : RawEntry}
    (h : (k, e) ∈ m) (hn : (m.map Prod.fst).Nodup) : lookupE k m = some e := by
  induction m with
  | nil => simp at h
  | cons p m ih =>
      rw [List.map_cons, List.nodup_cons] at hn
      rcases List.mem_cons.mp h with h1 | h1
      · rw [lookupE, if_pos (by rw [← h1])]
        rw [← h1]
      · have hp : p.1 ≠ k := by
          intro hk
          exact hn.1 (hk ▸ List.mem_map_of_mem Prod.fst h1)
        rw [lookupE, if_neg hp]
        exact ih h1 hn.2

lemma nodup_keys_step (m : List (Key × RawEntry)) (r : ActionRecord)
    (hn : (m.map Prod.fst).Nodup) : ((stepMatrix m r).map Prod.fst).Nodup := by
  cases h : lookupE (keyOf r) m with
  | some e =>
      have : (stepMatrix m r).map Prod.fst = m.map Prod.fst := by
        simp only [stepMatrix, h, List.map_map]
        apply List.map_congr_left
        intro p _
        by_cases hp : p.1 = keyOf r <;> simp [hp]
      rw [this]
      exact hn
  | none =>
      have : (stepMatrix m r).map Prod.fst = m.map Prod.fst ++ [keyOf r] := by
        simp [stepMatrix, h]
      rw [this]
      rw [List.nodup_append]
      refine ⟨hn, List.nodup_singleton _, ?_⟩
      intro a ha hb
      rw [List.mem_singleton] at hb
      subst hb
      exact (lookupE_eq_none_iff _ _).mp h ha

lemma nodup_keys_aggRaw (l : List ActionRecord) :
    ((aggRaw l).map Prod.fst).Nodup := by
  rw [aggRaw]
  have : ∀ m : List (Key × RawEntry), (m.map Prod.fst).Nodup →
      ((l.foldl stepMatrix m).map Prod.fst).Nodup := by
    induction l with
    | nil => intro m hm; exact hm
    | cons r l ih =>
        intro m hm
        rw [List.foldl_cons]
        exact ih _ (nodup_keys_step m r hm)
  exact this [] (by simp)

lemma mem_aggRaw_iff (l : List ActionRecord) (k : Key) (e : RawEntry) :
    (k, e) ∈ aggRaw l ↔ (keyedRecs k l ≠ [] ∧ e = entryOf k l) := by
  constructor
  · intro h
    have hl := lookupE_of_mem_nodup h (nodup_keys_aggRaw l)
    rw [lookupE_aggRaw] at hl
    by_cases hk : keyedRecs k l = []
    · rw [if_pos hk] at hl; cases hl
    · rw [if_neg hk] at hl
      exact ⟨hk, (Option.some.inj hl).symm⟩
  · rintro ⟨hk, rfl⟩
    apply mem_of_lookupE (m := aggRaw l)
    rw [lookupE_aggRaw, if_neg hk]

/-- Membership in the finalized matrix, characterized key-by-key. -/
lemma mem_aggregate_iff (l : List ActionRecord) (row : MatrixRow) :
    row ∈ aggregate_to_matrix l ↔
      ∃ k : Key, keyedRecs k l ≠ [] ∧ row = finalizeEntry (entryOf k l) := by
  rw [aggregate_to_matrix, List.mem_map]
  constructor
  · rintro ⟨⟨k, e⟩, hmem, rfl⟩
    obtain ⟨hk, rfl⟩ := (mem_aggRaw_iff l k e).mp hmem
    exact ⟨k, hk, rfl⟩
  · rintro ⟨k, hk, rfl⟩
    exact ⟨(k, entryOf k l), (mem_aggRaw_iff l k _).mpr ⟨hk, rfl⟩, rfl⟩

/-! ## Finalization facts -/

lemma finalize_principal (e : RawEntry) : (finalizeEntry e).principal = e.principal := rfl

lemma finalize_principalType (e : RawEntry) :
    (finalizeEntry e).principalType = e.principalType := rfl

lemma finalize_service (e : RawEntry) : (finalizeEntry e).service = e.service := rfl

lemma finalize_hasDeny (e : RawEntry) :
    (finalizeEntry e).hasExplicitDeny = e.hasExplicitDeny := rfl

lemma finalize_accessLevels (e : RawEntry) :
    (finalizeEntry e).accessLevels =
      (if e.allowedLevels.filter (fun lvl => decide (lvl ∉ e.deniedLevels)) = [] then "None"
       else String.intercalate ","
         (List.insertionSort (· ≤ ·)
           (e.allowedLevels.filter (fun lvl => decide (lvl ∉ e.deniedLevels))))) := rfl

lemma finalize_scope (e : RawEntry) :
    (finalizeEntry e).resourceScope =
      (if "*" ∈ e.resources.dedup ∧ e.resources.dedup.length = 1 then "AllResources"
       else if "*" ∈ e.resources.dedup then "Mixed"
       else "Scoped") := rfl

lemma finalize_sources (e : RawEntry) :
    (finalizeEntry e).sources =
      String.intercalate ";" (List.insertionSort (· ≤ ·) e.sources) := rfl

/-- Two duplicate-free lists with the same members sort to the same list. -/
lemma sortedRender_eq {l₁ l₂ : List String} (h₁ : l₁.Nodup) (h₂ : l₂.Nodup)
    (hm : ∀ x, x ∈ l₁ ↔ x ∈ l₂) :
    List.insertionSort (· ≤ ·) l₁ = List.insertionSort (· ≤ ·) l₂ := by
  have hp : List.Perm l₁ l₂ := (List.perm_ext_iff_of_nodup h₁ h₂).mpr hm
  exact List.eq_of_perm_of_sorted
    ((List.perm_insertionSort _ _).trans (hp.trans (List.perm_insertionSort _ _).symm))
    (List.sorted_insertionSort _ _) (List.sorted_insertionSort _ _)

/-- The effective access levels of a key, characterized independently of
the fold: Allow levels minus Deny levels, without duplicates. -/
def effLevels (k : Key) (l : List ActionRecord) : List String :=
  ((allowedLvls (keyedRecs k l)).filter
    (fun x => decide (x ∉ deniedLvls (keyedRecs k l)))).dedup

/-- Sample Allow record used by concrete witnesses. -/
def recR : ActionRecord :=
  { principal := "alice", principalType := "User", policyName := "p1",
    policyType := "Inline", effect := "Allow", action := "s3:GetObject",
    service := "s3", accessLevel := "Read", resources := ["*"], condition := [] }

/-- Sample Deny record used by concrete witnesses. -/
def recD : ActionRecord :=
  { principal := "alice", principalType := "User", policyName := "p2",
    policyType := "Attached", effect := "Deny", action := "s3:PutObject",
    service := "s3", accessLevel := "Write", resources := ["arn:a"], condition := [] }

/-- Sample record with a non-standard effect string. -/
def recL : ActionRecord :=
  { principal := "bob", principalType := "User", policyName := "p3",
    policyType := "Inline", effect := "allow", action := "ec2:DescribeInstances",
    service := "ec2", accessLevel := "List", resources := ["arn:b"], condition := [] }

/-- C3: every finalized matrix row renders, as its access levels, exactly
the key's Allow levels minus its Deny levels — a level seen under both
effects is absent — as the sentinel `"None"` when that set is empty and as
a comma-joined lexicographically sorted string otherwise. -/
theorem effective_levels_sdiff :
    ∀ (l : List ActionRecord) (row : MatrixRow), row ∈ aggregate_to_matrix l →
    ∃ k : Key, keyedRecs k l ≠ [] ∧
      row.principal = k.1 ∧ row.principalType = k.2.1 ∧ row.service = k.2.2 ∧
      (∀ lvl : String, lvl ∈ effLevels k l ↔
        (lvl ∈ allowedLvls (keyedRecs k l) ∧ lvl ∉ deniedLvls (keyedRecs k l))) ∧
      row.accessLevels =
        (if effLevels k l = [] then "None"
         else String.intercalate "," (List.insertionSort (· ≤ ·) (effLevels k l))) := by
  intro l row hrow
  obtain ⟨k, hk, rfl⟩ := (mem_aggregate_iff l row).mp hrow
  refine ⟨k, hk, ?_, ?_, ?_, ?_, ?_⟩
  · rw [finalize_principal, entry_principal]
  · rw [finalize_principalType, entry_principalType]
  · rw [finalize_service, entry_service]
  · intro lvl
    simp [effLevels, List.mem_dedup, List.mem_filter]
  · rw [finalize_accessLevels]
    have hmm : ∀ x,
        x ∈ (entryOf k l).allowedLevels.filter
          (fun lvl => decide (lvl ∉ (entryOf k l).deniedLevels)) ↔
        x ∈ effLevels k l := by
      intro x
      simp [List.mem_filter, effLevels, List.mem_dedup,
        entry_allowed_mem, entry_denied_mem]
    have hnd : ((entryOf k l).allowedLevels.filter
        (fun lvl => decide (lvl ∉ (entryOf k l).deniedLevels))).Nodup :=
      (entry_allowed_nodup k l).filter _
    have hsort := sortedRender_eq hnd (List.nodup_dedup _) hmm
    have hnil : ((entryOf k l).allowedLevels.filter
        (fun lvl => decide (lvl ∉ (entryOf k l).deniedLevels)) = []) ↔
        effLevels k l = [] := by
      rw [List.eq_nil_iff_forall_not_mem, List.eq_nil_iff_forall_not_mem]
      exact forall_congr' fun x => not_congr (hmm x)
    by_cases hE : (entryOf k l).allowedLevels.filter
        (fun lvl => decide (lvl ∉ (entryOf k l).deniedLevels)) = []
    · rw [if_pos hE, if_pos (hnil.mp hE)]
    · rw [if_neg hE, if_neg (fun h => hE (hnil.mpr h)), hsort]
      rfl

/-- C3 witness: the characterization applied to the singleton Allow
stream, whose only row carries `AccessLevels = "Read"`. -/
theorem effective_levels_sdiff_app :
    ∃ k : Key, keyedRecs k [recR] ≠ [] ∧
      "alice" = k.1 ∧ "User" = k.2.1 ∧ "s3" = k.2.2 ∧
      (∀ lvl : String, lvl ∈ effLevels k [recR] ↔
        (lvl ∈ allowedLvls (keyedRecs k [recR]) ∧ lvl ∉ deniedLvls (keyedRecs k [recR]))) ∧
      "Read" =
        (if effLevels k [recR] = [] then "None"
         else String.intercalate "," (List.insertionSort (· ≤ ·) (effLevels k [recR]))) :=
  effective_levels_sdiff [recR]
    { principal := "alice", principalType := "User", service := "s3",
      accessLevels := "Read", resourceScope := "AllResources",
      hasExplicitDeny := false, sources := "p1" }
    (by decide)

/-- C4: in every finalized matrix row, the scope classification satisfies
the trichotomy — `AllResources` iff the deduplicated resource set is
exactly `{"*"}`, `Mixed` iff `"*"` sits alongside at least one other
value, `Scoped` iff `"*"` is absent. -/
theorem resource_scope_trichotomy :
    ∀ (l : List ActionRecord) (row : MatrixRow), row ∈ aggregate_to_matrix l →
    ∃ k : Key, keyedRecs k l ≠ [] ∧
      row.principal = k.1 ∧ row.principalType = k.2.1 ∧ row.service = k.2.2 ∧
      (row.resourceScope = "AllResources" ↔
        (resourcesOf (keyedRecs k l)).toFinset = {"*"}) ∧
      (row.resourceScope = "Mixed" ↔
        ("*" ∈ (resourcesOf (keyedRecs k l)).toFinset ∧
         ∃ x ∈ (resourcesOf (keyedRecs k l)).toFinset, x ≠ "*")) ∧
      (row.resourceScope = "Scoped" ↔
        "*" ∉ (resourcesOf (keyedRecs k l)).toFinset) := by
  intro l row hrow
  obtain ⟨k, hk, rfl⟩ := (mem_aggregate_iff l row).mp hrow
  have hstar : ("*" ∈ (resourcesOf (keyedRecs k l)).dedup) ↔
      "*" ∈ (resourcesOf (keyedRecs k l)).toFinset := by
    rw [List.mem_dedup, List.mem_toFinset]
  have hcard : (resourcesOf (keyedRecs k l)).dedup.length =
      (resourcesOf (keyedRecs k l)).toFinset.card := by
    rw [← List.toFinset_card_of_nodup (List.nodup_dedup _)]
    congr 1
    apply Finset.ext
    intro x
    rw [List.mem_toFinset, List.mem_toFinset, List.mem_dedup]
  refine ⟨k, hk, ?_, ?_, ?_, ?_, ?_, ?_⟩
  · rw [finalize_principal, entry_principal]
  · rw [finalize_principalType, entry_principalType]
  · rw [finalize_service, entry_service]
  · rw [finalize_scope, entry_resources]
    by_cases h1 : "*" ∈ (resourcesOf (keyedRecs k l)).dedup ∧
        (resourcesOf (keyedRecs k l)).dedup.length = 1
    · rw [if_pos h1]
      simp only [true_iff]
      obtain ⟨a, ha⟩ := Finset.card_eq_one.mp (by rw [← hcard]; exact h1.2)
      have : "*" = a := by
        have := hstar.mp h1.1
        rw [ha, Finset.mem_singleton] at this
        exact this
      rw [ha, ← this]
    · rw [if_neg h1]
      constructor
      · intro hcontra
        exfalso
        by_cases h2 : "*" ∈ (resourcesOf (keyedRecs k l)).dedup
        · rw [if_pos h2] at hcontra
          exact absurd hcontra (by decide)
        · rw [if_neg h2] at hcontra
          exact absurd hcontra (by decide)
      · intro hsing
        exfalso
        apply h1
        constructor
        · rw [hstar, hsing]
          exact Finset.mem_singleton_self _
        · rw [hcard, hsing]
          exact Finset.card_singleton _
  · rw [finalize_scope, entry_resources]
    by_cases h1 : "*" ∈ (resourcesOf (keyedRecs k l)).dedup ∧
        (resourcesOf (keyedRecs k l)).dedup.length = 1
    · rw [if_pos h1]
      constructor
      · intro hcontra
        exact absurd hcontra (by decide)
      · rintro ⟨hin, x, hx, hxne⟩
        exfalso
        obtain ⟨a, ha⟩ := Finset.card_eq_one.mp (by rw [← hcard]; exact h1.2)
        have hxa : x = a := by rw [ha, Finset.mem_singleton] at hx; exact hx
        have hsa : "*" = a := by
          have := hstar.mp h1.1
          rw [ha, Finset.mem_singleton] at this
          exact this
        exact hxne (hxa.trans hsa.symm)
    · rw [if_neg h1]
      by_cases h2 : "*" ∈ (resourcesOf (keyedRecs k l)).dedup
      · rw [if_pos h2]
        simp only [true_iff]
        refine ⟨hstar.mp h2, ?_⟩
        have hlt : 1 < (resourcesOf (keyedRecs k l)).toFinset.card := by
          have hpos : 0 < (resourcesOf (keyedRecs k l)).toFinset.card :=
            Finset.card_pos.mpr ⟨"*", hstar.mp h2⟩
          have hne1 : (resourcesOf (keyedRecs k l)).toFinset.card ≠ 1 := by
            intro hc
            exact h1 ⟨h2, by rw [hcard, hc]⟩
          omega
        obtain ⟨b, hb, hbne⟩ := Finset.exists_ne_of_one_lt_card hlt "*"
        exact ⟨b, hb, hbne⟩
      · rw [if_neg h2]
        constructor
        · intro hcontra
          exact absurd hcontra (by decide)
        · rintro ⟨hin, -⟩
          exact absurd (hstar.mpr hin) h2
  · rw [finalize_scope, entry_resources]
    by_cases h1 : "*" ∈ (resourcesOf (keyedRecs k l)).dedup ∧
        (resourcesOf (keyedRecs k l)).dedup.length = 1
    · rw [if_pos h1]
      constructor
      · intro hcontra
        exact absurd hcontra (by decide)
      · intro habs
        exact absurd (hstar.mp h1.1) habs
    · rw [if_neg h1]
      by_cases h2 : "*" ∈ (resourcesOf (keyedRecs k l)).dedup
      · rw [if_pos h2]
        constructor
        · intro hcontra
          exact absurd hcontra (by decide)
        · intro habs
          exact absurd (hstar.mp h2) habs
      · rw [if_neg h2]
        simp only [true_iff]
        intro habs
        exact h2 (hstar.mpr habs)

/-- C4 witness: the trichotomy applied to the singleton Deny stream over
the scoped resource `arn:a`, whose row is classified `Scoped`. -/
theorem resource_scope_trichotomy_app :
    ∃ k : Key, keyedRecs k [recD] ≠ [] ∧
      "alice" = k.1 ∧ "User" = k.2.1 ∧ "s3" = k.2.2 ∧
      ("Scoped" = "AllResources" ↔
        (resourcesOf (keyedRecs k [recD])).toFinset = {"*"}) ∧
      ("Scoped" = "Mixed" ↔
        ("*" ∈ (resourcesOf (keyedRecs k [recD])).toFinset ∧
         ∃ x ∈ (resourcesOf (keyedRecs k [recD])).toFinset, x ≠ "*")) ∧
      ("Scoped" = "Scoped" ↔
        "*" ∉ (resourcesOf (keyedRecs k [recD])).toFinset) :=
  resource_scope_trichotomy [recD]
    { principal := "alice", principalType := "User", service := "s3",
      accessLevels := "None", resourceScope := "Scoped",
      hasExplicitDeny := true, sources := "p2" }
    (by decide)

/-- C7: the `hasExplicitDeny` flag is false on entry creation, is never
reset by a fold step that keeps the key's entry, and after the whole fold
it is set exactly when some record of the key carried a Deny effect —
i.e. it turns true at the first Deny and stays true. -/
theorem deny_flag_monotone :
    (∀ r : ActionRecord, (newEntry r).hasExplicitDeny = false)
    ∧ (∀ (m : List (Key × RawEntry)) (r : ActionRecord) (k : Key) (e e' : RawEntry),
        lookupE k m = some e → lookupE k (stepMatrix m r) = some e' →
        e.hasExplicitDeny = true → e'.hasExplicitDeny = true)
    ∧ (∀ (l : List ActionRecord) (k : Key) (e : RawEntry),
        lookupE k (aggRaw l) = some e →
        (e.hasExplicitDeny = true ↔ ∃ r ∈ keyedRecs k l, r.effect = "Deny")) := by
  refine ⟨fun r => rfl, ?_, ?_⟩
  · intro m r k e e' h1 h2 hd
    rw [lookupE_step, h1] at h2
    by_cases hk : k = keyOf r
    · rw [if_pos hk] at h2
      have : e' = updEntry e r := (Option.some.inj h2).symm
      rw [this, upd_hasDeny, hd, Bool.true_or]
    · rw [if_neg hk] at h2
      rw [← Option.some.inj h2]
      exact hd
  · intro l k e h
    rw [lookupE_aggRaw] at h
    by_cases hk : keyedRecs k l = []
    · rw [if_pos hk] at h; cases h
    · rw [if_neg hk] at h
      rw [← Option.some.inj h, entry_hasDeny, anyDeny, List.any_eq_true]
      simp

/-- C7 witness: the post-fold characterization applied to the singleton
Deny stream. -/
theorem deny_flag_monotone_app :
    (entryOf (keyOf recD) [recD]).hasExplicitDeny = true ↔
      ∃ r ∈ keyedRecs (keyOf recD) [recD], r.effect = "Deny" :=
  deny_flag_monotone.2.2 [recD] (keyOf recD) (entryOf (keyOf recD) [recD]) (by decide)

/-- C10: a record whose Effect is neither exactly `"Allow"` nor exactly
`"Deny"` contributes to neither level set and leaves the deny flag
unchanged, yet its resources are still appended and its policy name still
added to the sources. -/
theorem nonstandard_effect_update :
    ∀ (e : RawEntry) (r : ActionRecord), r.effect ≠ "Allow" → r.effect ≠ "Deny" →
      (updEntry e r).allowedLevels = e.allowedLevels
      ∧ (updEntry e r).deniedLevels = e.deniedLevels
      ∧ (updEntry e r).hasExplicitDeny = e.hasExplicitDeny
      ∧ (updEntry e r).resources = e.resources ++ r.resources
      ∧ (updEntry e r).sources = sadd r.policyName e.sources := by
  intro e r h1 h2
  refine ⟨?_, ?_, ?_, upd_resources e r, upd_sources e r⟩
  · rw [upd_allowed, if_neg h1]
  · rw [upd_denied, if_neg h2]
  · rw [upd_hasDeny]
    simp [h2]

/-- C10 witness: the lowercase effect `"allow"` applied to a blank entry —
no level recorded, deny flag untouched, resources and sources updated. -/
theorem nonstandard_effect_update_app :
    (updEntry (initEntry ("bob", "User", "ec2")) recL).allowedLevels =
        (initEntry ("bob", "User", "ec2")).allowedLevels
    ∧ (updEntry (initEntry ("bob", "User", "ec2")) recL).deniedLevels =
        (initEntry ("bob", "User", "ec2")).deniedLevels
    ∧ (updEntry (initEntry ("bob", "User", "ec2")) recL).hasExplicitDeny =
        (initEntry ("bob", "User", "ec2")).hasExplicitDeny
    ∧ (updEntry (initEntry ("bob", "User", "ec2")) recL).resources =
        (initEntry ("bob", "User", "ec2")).resources ++ recL.resources
    ∧ (updEntry (initEntry ("bob", "User", "ec2")) recL).sources =
        sadd recL.policyName (initEntry ("bob", "User", "ec2")).sources :=
  nonstandard_effect_update (initEntry ("bob", "User", "ec2")) recL
    (by decide) (by decide)

/-! ## Order-independence of the aggregation -/

attribute [ext] MatrixRow

lemma allowedLvls_mem_congr {rs₁ rs₂ : List ActionRecord}
    (hp : List.Perm rs₁ rs₂) (x : String) :
    x ∈ allowedLvls rs₁ ↔ x ∈ allowedLvls rs₂ := by
  simp [allowedLvls, List.mem_map, List.mem_filter, hp.mem_iff]

lemma deniedLvls_mem_congr {rs₁ rs₂ : List ActionRecord}
    (hp : List.Perm rs₁ rs₂) (x : String) :
    x ∈ deniedLvls rs₁ ↔ x ∈ deniedLvls rs₂ := by
  simp [deniedLvls, List.mem_map, List.mem_filter, hp.mem_iff]

lemma sourceNames_mem_congr {rs₁ rs₂ : List ActionRecord}
    (hp : List.Perm rs₁ rs₂) (x : String) :
    x ∈ sourceNames rs₁ ↔ x ∈ sourceNames rs₂ := by
  simp [sourceNames, List.mem_map, hp.mem_iff]

lemma anyDeny_congr {rs₁ rs₂ : List ActionRecord} (hp : List.Perm rs₁ rs₂) :
    anyDeny rs₁ = anyDeny rs₂ := by
  cases h2 : anyDeny rs₂ with
  | false =>
      rw [anyDeny, List.any_eq_false] at h2 ⊢
      exact fun r hr => h2 r (hp.mem_iff.mp hr)
  | true =>
      rw [anyDeny, List.any_eq_true] at h2 ⊢
      obtain ⟨r, hr, hd⟩ := h2
      exact ⟨r, hp.mem_iff.mpr hr, hd⟩

/-- The `"None"`-or-sorted-join rendering agrees on duplicate-free lists
with the same members. -/
lemma renderIf_congr (sep : String) {l₁ l₂ : List String}
    (h₁ : l₁.Nodup) (h₂ : l₂.Nodup) (hm : ∀ x, x ∈ l₁ ↔ x ∈ l₂) :
    (if l₁ = [] then "None" else String.intercalate sep (List.insertionSort (· ≤ ·) l₁)) =
    (if l₂ = [] then "None" else String.intercalate sep (List.insertionSort (· ≤ ·) l₂)) := by
  have hnil : l₁ = [] ↔ l₂ = [] := by
    rw [List.eq_nil_iff_forall_not_mem, List.eq_nil_iff_forall_not_mem]
    exact forall_congr' fun x => not_congr (hm x)
  by_cases hE : l₁ = []
  · rw [if_pos hE, if_pos (hnil.mp hE)]
  · rw [if_neg hE, if_neg (fun h => hE (hnil.mpr h)), sortedRender_eq h₁ h₂ hm]

/-- Permuting a key's records does not change its finalized row. -/
lemma finalize_entryOf_congr {k : Key} {l₁ l₂ : List ActionRecord}
    (hp : List.Perm (keyedRecs k l₁) (keyedRecs k l₂)) :
    finalizeEntry (entryOf k l₁) = finalizeEntry (entryOf k l₂) := by
  have hR : List.Perm (resourcesOf (keyedRecs k l₁)) (resourcesOf (keyedRecs k l₂)) :=
    hp.flatMap_right _
  ext1
  · rw [finalize_principal, finalize_principal, entry_principal, entry_principal]
  · rw [finalize_principalType, finalize_principalType,
      entry_principalType, entry_principalType]
  · rw [finalize_service, finalize_service, entry_service, entry_service]
  · rw [finalize_accessLevels, finalize_accessLevels]
    apply renderIf_congr
    · exact (entry_allowed_nodup k l₁).filter _
    · exact (entry_allowed_nodup k l₂).filter _
    · intro x
      simp only [List.mem_filter, decide_eq_true_eq, entry_allowed_mem, entry_denied_mem]
      rw [allowedLvls_mem_congr hp, deniedLvls_mem_congr hp]
  · rw [finalize_scope, finalize_scope, entry_resources, entry_resources]
    have hmem : ("*" ∈ (resourcesOf (keyedRecs k l₁)).dedup) ↔
        ("*" ∈ (resourcesOf (keyedRecs k l₂)).dedup) := by
      rw [List.mem_dedup, List.mem_dedup, hR.mem_iff]
    have hlen : (resourcesOf (keyedRecs k l₁)).dedup.length =
        (resourcesOf (keyedRecs k l₂)).dedup.length :=
      hR.dedup.length_eq
    refine if_congr (and_congr hmem (by rw [hlen])) rfl (if_congr hmem rfl rfl)
  · rw [finalize_hasDeny, finalize_hasDeny, entry_hasDeny, entry_hasDeny,
      anyDeny_congr hp]
  · rw [finalize_sources, finalize_sources]
    rw [sortedRender_eq (entry_sources_nodup k l₁) (entry_sources_nodup k l₂)]
    intro x
    rw [entry_sources_mem, entry_sources_mem, sourceNames_mem_congr hp]

/-- C6: the set of finalized matrix rows does not depend on the order of
the input records — any permutation of the stream yields the same row
set. -/
theorem aggregate_matrix_perm_inv :
    ∀ l₁ l₂ : List ActionRecord, List.Perm l₁ l₂ →
      (aggregate_to_matrix l₁).toFinset = (aggregate_to_matrix l₂).toFinset := by
  intro l₁ l₂ h
  apply Finset.ext
  intro row
  simp only [List.mem_toFinset]
  rw [mem_aggregate_iff, mem_aggregate_iff]
  constructor
  · rintro ⟨k, hk, rfl⟩
    have hp : List.Perm (keyedRecs k l₁) (keyedRecs k l₂) := h.filter _
    refine ⟨k, ?_, finalize_entryOf_congr hp⟩
    intro hnil
    rw [hnil] at hp
    exact hk hp.eq_nil
  · rintro ⟨k, hk, rfl⟩
    have hp : List.Perm (keyedRecs k l₁) (keyedRecs k l₂) := h.filter _
    refine ⟨k, ?_, (finalize_entryOf_congr hp).symm⟩
    intro hnil
    rw [hnil] at hp
    exact hk hp.symm.eq_nil

/-- C6 witness: the two orders of a two-record stream produce the same row
set. -/
theorem aggregate_matrix_perm_inv_app :
    (aggregate_to_matrix [recR, recD]).toFinset =
      (aggregate_to_matrix [recD, recR]).toFinset :=
  aggregate_matrix_perm_inv [recR, recD] [recD, recR] (List.Perm.swap recD recR [])

/-! ## Drift comparator facts -/

/-- Some drift record for key `k` occurs in the output. -/
def keyIn (c : List DriftRecord) (k : Key) : Prop :=
  ∃ r ∈ c, r.principal = k.1 ∧ r.principalType = k.2.1 ∧ r.service = k.2.2

/-- A drift record for key `k` with change type `t` occurs in the output. -/
def labeledIn (c : List DriftRecord) (k : Key) (t : String) : Prop :=
  ∃ r ∈ c, r.principal = k.1 ∧ r.principalType = k.2.1 ∧ r.service = k.2.2 ∧
    r.changeType = t

lemma mem_compare (day1 day2 : List (Key × DriftRow)) (r : DriftRecord) :
    r ∈ compare_matrices day1 day2 ↔
      ∃ k ∈ allKeys day1 day2, driftAt day1 day2 k = some r := by
  rw [compare_matrices, List.mem_filterMap]

lemma lookupRow_eq_none_iff (k : Key) (m : List (Key × DriftRow)) :
    lookupRow k m = none ↔ k ∉ m.map Prod.fst := by
  induction m with
  | nil => simp [lookupRow]
  | cons p m ih =>
      by_cases hp : p.1 = k
      · simp [lookupRow, hp]
      · simp [lookupRow, hp, ih, Ne.symm hp]

lemma lookupRow_isSome_of_mem (k : Key) (m : List (Key × DriftRow))
    (h : k ∈ m.map Prod.fst) : ∃ r, lookupRow k m = some r := by
  cases hl : lookupRow k m with
  | none => exact absurd h ((lookupRow_eq_none_iff k m).mp hl)
  | some r => exact ⟨r, rfl⟩

lemma mem_allKeys (day1 day2 : List (Key × DriftRow)) (k : Key) :
    k ∈ allKeys day1 day2 ↔ k ∈ day1.map Prod.fst ∨ k ∈ day2.map Prod.fst := by
  simp [allKeys, List.mem_dedup, List.mem_append]

lemma allKeys_comm (day1 day2 : List (Key × DriftRow)) (k : Key) :
    k ∈ allKeys day1 day2 ↔ k ∈ allKeys day2 day1 := by
  rw [mem_allKeys, mem_allKeys, or_comm]

lemma driftAt_key {day1 day2 : List (Key × DriftRow)} {k : Key} {r : DriftRecord}
    (h : driftAt day1 day2 k = some r) :
    r.principal = k.1 ∧ r.principalType = k.2.1 ∧ r.service = k.2.2 := by
  cases h1 : lookupRow k day1 with
  | none =>
      cases h2 : lookupRow k day2 with
      | none =>
          simp only [driftAt, h1, h2] at h
          exact Option.noConfusion h
      | some r2 =>
          simp only [driftAt, h1, h2] at h
          rw [← Option.some.inj h]
          exact ⟨rfl, rfl, rfl⟩
  | some r1 =>
      cases h2 : lookupRow k day2 with
      | none =>
          simp only [driftAt, h1, h2] at h
          rw [← Option.some.inj h]
          exact ⟨rfl, rfl, rfl⟩
      | some r2 =>
          simp only [driftAt, h1, h2] at h
          split_ifs at h
          rw [← Option.some.inj h]
          exact ⟨rfl, rfl, rfl⟩

lemma keyIn_compare_iff (day1 day2 : List (Key × DriftRow)) (k : Key) :
    keyIn (compare_matrices day1 day2) k ↔
      (k ∈ allKeys day1 day2 ∧ ∃ r, driftAt day1 day2 k = some r) := by
  constructor
  · rintro ⟨r, hr, h1, h2, h3⟩
    obtain ⟨k', hk', hda⟩ := (mem_compare day1 day2 r).mp hr
    obtain ⟨e1, e2, e3⟩ := driftAt_key hda
    obtain ⟨a, b, c⟩ := k
    obtain ⟨a', b', c'⟩ := k'
    have ha : a' = a := e1.symm.trans h1
    have hb : b' = b := e2.symm.trans h2
    have hc : c' = c := e3.symm.trans h3
    subst ha
    subst hb
    subst hc
    exact ⟨hk', r, hda⟩
  · rintro ⟨hk, r, hda⟩
    obtain ⟨e1, e2, e3⟩ := driftAt_key hda
    exact ⟨r, (mem_compare day1 day2 r).mpr ⟨k, hk, hda⟩, e1, e2, e3⟩

lemma labeledIn_compare_iff (day1 day2 : List (Key × DriftRow)) (k : Key) (t : String) :
    labeledIn (compare_matrices day1 day2) k t ↔
      (k ∈ allKeys day1 day2 ∧
       ∃ r, driftAt day1 day2 k = some r ∧ r.changeType = t) := by
  constructor
  · rintro ⟨r, hr, h1, h2, h3, ht⟩
    obtain ⟨k', hk', hda⟩ := (mem_compare day1 day2 r).mp hr
    obtain ⟨e1, e2, e3⟩ := driftAt_key hda
    obtain ⟨a, b, c⟩ := k
    obtain ⟨a', b', c'⟩ := k'
    have ha : a' = a := e1.symm.trans h1
    have hb : b' = b := e2.symm.trans h2
    have hc : c' = c := e3.symm.trans h3
    subst ha
    subst hb
    subst hc
    exact ⟨hk', r, hda, ht⟩
  · rintro ⟨hk, r, hda, ht⟩
    obtain ⟨e1, e2, e3⟩ := driftAt_key hda
    exact ⟨r, (mem_compare day1 day2 r).mpr ⟨k, hk, hda⟩, e1, e2, e3, ht⟩

/-- C2: for any key in the union of the two key sets, a drift record for
that key is emitted if and only if the key is absent on one side or
present on both with at least one of the three compared fields differing;
in particular comparing a matrix against itself emits nothing. -/
theorem drift_emitted_iff_differs :
    (∀ (day1 day2 : List (Key × DriftRow)) (k : Key), k ∈ allKeys day1 day2 →
      (keyIn (compare_matrices day1 day2) k ↔
        (lookupRow k day1 = none ∨ lookupRow k day2 = none ∨
         ∃ r1 r2, lookupRow k day1 = some r1 ∧ lookupRow k day2 = some r2 ∧
           (r1.accessLevels ≠ r2.accessLevels ∨ r1.resourceScope ≠ r2.resourceScope ∨
            r1.hasExplicitDeny ≠ r2.hasExplicitDeny))))
    ∧ (∀ d : List (Key × DriftRow), compare_matrices d d = []) := by
  constructor
  · intro day1 day2 k hk
    rw [keyIn_compare_iff]
    constructor
    · rintro ⟨-, r, hda⟩
      cases h1 : lookupRow k day1 with
      | none => exact Or.inl rfl
      | some r1 =>
          cases h2 : lookupRow k day2 with
          | none => exact Or.inr (Or.inl rfl)
          | some r2 =>
              simp only [driftAt, h1, h2] at hda
              split_ifs at hda with hcond
              exact Or.inr (Or.inr ⟨r1, r2, rfl, rfl, hcond⟩)
    · intro hdisj
      refine ⟨hk, ?_⟩
      rcases hdisj with h1 | h2 | ⟨r1, r2, h1, h2, hcond⟩
      · have hmem : k ∈ day2.map Prod.fst := by
          rcases (mem_allKeys day1 day2 k).mp hk with hm | hm
          · exact absurd hm ((lookupRow_eq_none_iff k day1).mp h1)
          · exact hm
        obtain ⟨r2, h2⟩ := lookupRow_isSome_of_mem k day2 hmem
        exact ⟨{ principal := k.1, principalType := k.2.1, service := k.2.2,
                 changeType := "Added", day1 := "None", day2 := r2.accessLevels },
               by simp only [driftAt, h1, h2]⟩
      · have hmem : k ∈ day1.map Prod.fst := by
          rcases (mem_allKeys day1 day2 k).mp hk with hm | hm
          · exact hm
          · exact absurd hm ((lookupRow_eq_none_iff k day2).mp h2)
        obtain ⟨r1, h1⟩ := lookupRow_isSome_of_mem k day1 hmem
        exact ⟨{ principal := k.1, principalType := k.2.1, service := k.2.2,
                 changeType := "Removed", day1 := r1.accessLevels, day2 := "None" },
               by simp only [driftAt, h1, h2]⟩
      · exact ⟨{ principal := k.1, principalType := k.2.1, service := k.2.2,
                 changeType := "Modified", day1 := pipeTriple r1, day2 := pipeTriple r2 },
               by simp only [driftAt, h1, h2, if_pos hcond]⟩
  · intro d
    rw [compare_matrices, List.filterMap_eq_nil_iff]
    intro k hk
    cases h : lookupRow k d with
    | none => simp [driftAt, h]
    | some r => simp [driftAt, h]

/-- C2 witness: a key present only on day 1 yields a record, as the
theorem's condition predicts. -/
theorem drift_emitted_iff_differs_app :
    keyIn
      (compare_matrices
        [(("bob", "User", "ec2"),
          { accessLevels := "Read", resourceScope := "Scoped",
            hasExplicitDeny := "False" })] [])
      ("bob", "User", "ec2") ↔
      (lookupRow ("bob", "User", "ec2")
          [(("bob", "User", "ec2"),
            { accessLevels := "Read", resourceScope := "Scoped",
              hasExplicitDeny := "False" })] = none ∨
       lookupRow ("bob", "User", "ec2") ([] : List (Key × DriftRow)) = none ∨
       ∃ r1 r2, lookupRow ("bob", "User", "ec2")
            [(("bob", "User", "ec2"),
              { accessLevels := "Read", resourceScope := "Scoped",
                hasExplicitDeny := "False" })] = some r1 ∧
          lookupRow ("bob", "User", "ec2") ([] : List (Key × DriftRow)) = some r2 ∧
          (r1.accessLevels ≠ r2.accessLevels ∨ r1.resourceScope ≠ r2.resourceScope ∨
           r1.hasExplicitDeny ≠ r2.hasExplicitDeny)) :=
  drift_emitted_iff_differs.1
    [(("bob", "User", "ec2"),
      { accessLevels := "Read", resourceScope := "Scoped",
        hasExplicitDeny := "False" })] []
    ("bob", "User", "ec2") (by decide)

lemma driftAt_some_swap (day1 day2 : List (Key × DriftRow)) (k : Key) :
    (∃ r, driftAt day1 day2 k = some r) ↔ (∃ r, driftAt day2 day1 k = some r) := by
  cases h1 : lookupRow k day1 with
  | none =>
      cases h2 : lookupRow k day2 with
      | none => simp [driftAt, h1, h2]
      | some r2 => simp [driftAt, h1, h2]
  | some r1 =>
      cases h2 : lookupRow k day2 with
      | none => simp [driftAt, h1, h2]
      | some r2 =>
          simp only [driftAt, h1, h2]
          split_ifs with hc1 hc2 hc2
          · simp
          · exact absurd (by tauto : r2.accessLevels ≠ r1.accessLevels ∨
              r2.resourceScope ≠ r1.resourceScope ∨
              r2.hasExplicitDeny ≠ r1.hasExplicitDeny) hc2
          · exact absurd (by tauto : r1.accessLevels ≠ r2.accessLevels ∨
              r1.resourceScope ≠ r2.resourceScope ∨
              r1.hasExplicitDeny ≠ r2.hasExplicitDeny) hc1
          · simp

lemma driftAt_added_swap (day1 day2 : List (Key × DriftRow)) (k : Key) :
    (∃ r, driftAt day1 day2 k = some r ∧ r.changeType = "Added") ↔
      (∃ r, driftAt day2 day1 k = some r ∧ r.changeType = "Removed") := by
  cases h1 : lookupRow k day1 with
  | none =>
      cases h2 : lookupRow k day2 with
      | none => simp [driftAt, h1, h2]
      | some r2 =>
          simp only [driftAt, h1, h2]
          constructor
          · rintro ⟨r, hr, -⟩
            exact ⟨_, rfl, rfl⟩
          · rintro ⟨r, hr, -⟩
            exact ⟨_, rfl, rfl⟩
  | some r1 =>
      cases h2 : lookupRow k day2 with
      | none =>
          simp only [driftAt, h1, h2]
          constructor
          · rintro ⟨r, hr, ht⟩
            rw [← Option.some.inj hr] at ht
            simp at ht
          · rintro ⟨r, hr, ht⟩
            rw [← Option.some.inj hr] at ht
            simp at ht
      | some r2 =>
          simp only [driftAt, h1, h2]
          constructor
          · rintro ⟨r, hr, ht⟩
            split_ifs at hr
            rw [← Option.some.inj hr] at ht
            simp at ht
          · rintro ⟨r, hr, ht⟩
            split_ifs at hr
            rw [← Option.some.inj hr] at ht
            simp at ht

lemma driftAt_modified_swap (day1 day2 : List (Key × DriftRow)) (k : Key) :
    (∃ r, driftAt day1 day2 k = some r ∧ r.changeType = "Modified") ↔
      (∃ r, driftAt day2 day1 k = some r ∧ r.changeType = "Modified") := by
  cases h1 : lookupRow k day1 with
  | none =>
      cases h2 : lookupRow k day2 with
      | none => simp [driftAt, h1, h2]
      | some r2 =>
          simp only [driftAt, h1, h2]
          constructor
          · rintro ⟨r, hr, ht⟩
            rw [← Option.some.inj hr] at ht
            simp at ht
          · rintro ⟨r, hr, ht⟩
            rw [← Option.some.inj hr] at ht
            simp at ht
  | some r1 =>
      cases h2 : lookupRow k day2 with
      | none =>
          simp only [driftAt, h1, h2]
          constructor
          · rintro ⟨r, hr, ht⟩
            rw [← Option.some.inj hr] at ht
            simp at ht
          · rintro ⟨r, hr, ht⟩
            rw [← Option.some.inj hr] at ht
            simp at ht
      | some r2 =>
          simp only [driftAt, h1, h2]
          split_ifs with hc1 hc2 hc2
          · constructor
            · rintro ⟨r, hr, -⟩
              exact ⟨_, rfl, rfl⟩
            · rintro ⟨r, hr, -⟩
              exact ⟨_, rfl, rfl⟩
          · exact absurd (by tauto : r2.accessLevels ≠ r1.accessLevels ∨
              r2.resourceScope ≠ r1.resourceScope ∨
              r2.hasExplicitDeny ≠ r1.hasExplicitDeny) hc2
          · exact absurd (by tauto : r1.accessLevels ≠ r2.accessLevels ∨
              r1.resourceScope ≠ r2.resourceScope ∨
              r1.hasExplicitDeny ≠ r2.hasExplicitDeny) hc1
          · simp

/-- C9: the comparator is symmetric under swapping its inputs: the same
keys receive records, every `Added` becomes a `Removed` and conversely,
and the `Modified` keys coincide. -/
theorem drift_symmetric :
    ∀ (day1 day2 : List (Key × DriftRow)) (k : Key),
      (keyIn (compare_matrices day1 day2) k ↔ keyIn (compare_matrices day2 day1) k)
      ∧ (labeledIn (compare_matrices day1 day2) k "Added" ↔
          labeledIn (compare_matrices day2 day1) k "Removed")
      ∧ (labeledIn (compare_matrices day1 day2) k "Removed" ↔
          labeledIn (compare_matrices day2 day1) k "Added")
      ∧ (labeledIn (compare_matrices day1 day2) k "Modified" ↔
          labeledIn (compare_matrices day2 day1) k "Modified") := by
  intro day1 day2 k
  refine ⟨?_, ?_, ?_, ?_⟩
  · rw [keyIn_compare_iff, keyIn_compare_iff, allKeys_comm, driftAt_some_swap]
  · rw [labeledIn_compare_iff, labeledIn_compare_iff, allKeys_comm, driftAt_added_swap]
  · rw [labeledIn_compare_iff, labeledIn_compare_iff, allKeys_comm,
      ← driftAt_added_swap day2 day1 k]
  · rw [labeledIn_compare_iff, labeledIn_compare_iff, allKeys_comm, driftAt_modified_swap]

/-! ## Statement normalizer facts -/

/-- C5: the normalizer emits exactly one record per (statement, action)
pair after coercion — a bare-string Action or Resource acts as a
one-element list, a single-object Statement acts as a one-element list,
missing Effect defaults to `"Allow"`, missing Resource to `["*"]`, missing
Condition to the empty structure, and a statement whose expanded action
list is empty contributes no records and no failure. -/
theorem normalizer_one_record_per_action :
    (∀ recs : List PrincipalRecord,
      (parse_policies recs).length =
        (recs.map (fun rec =>
          (rec.policies.map (fun pol =>
            ((stmtsOf pol).map (fun stmt =>
              (expand_actions stmt.action).length)).sum)).sum)).sum)
    ∧ (∀ p pt pn pty : String, ∀ stmt : Stmt,
        (recordsOfStmt p pt pn pty stmt).map (fun r => r.action) =
          expand_actions stmt.action)
    ∧ (∀ s : String, expand_actions (some (.one s)) = [s])
    ∧ (∀ s : String, coerceResources (some (.one s)) = [s])
    ∧ (∀ (st : Stmt) (pol : Policy), pol.statement = some (.single st) →
        stmtsOf pol = [st])
    ∧ (∀ p pt pn pty : String, ∀ stmt : Stmt, ∀ r : ActionRecord,
        r ∈ recordsOfStmt p pt pn pty stmt →
          (stmt.effect = none → r.effect = "Allow")
          ∧ (stmt.resource = none → r.resources = ["*"])
          ∧ (stmt.condition = none → r.condition = []))
    ∧ (∀ p pt pn pty : String, ∀ stmt : Stmt, expand_actions stmt.action = [] →
        recordsOfStmt p pt pn pty stmt = []) := by
  refine ⟨?_, ?_, fun s => rfl, fun s => rfl, ?_, ?_, ?_⟩
  · intro recs
    rw [parse_policies, List.length_flatMap]
    congr 1
    apply List.map_congr_left
    intro rec _
    simp only [Function.comp_apply]
    rw [List.length_flatMap]
    congr 1
    apply List.map_congr_left
    intro pol _
    simp only [Function.comp_apply]
    rw [List.length_flatMap]
    congr 1
    apply List.map_congr_left
    intro stmt _
    simp only [Function.comp_apply]
    rw [recordsOfStmt, List.length_map]
  · intro p pt pn pty stmt
    rw [recordsOfStmt, List.map_map]
    exact List.map_id'' (fun x => rfl) _
  · intro st pol h
    rw [stmtsOf, h]
  · intro p pt pn pty stmt r hr
    rw [recordsOfStmt] at hr
    obtain ⟨act, -, rfl⟩ := List.mem_map.mp hr
    refine ⟨?_, ?_, ?_⟩
    · intro he
      simp [he]
    · intro hres
      simp [hres, coerceResources]
    · intro hc
      simp [hc]
  · intro p pt pn pty stmt h
    rw [recordsOfStmt, h]
    rfl

/-- C5 witness: a statement with bare-string action, no Effect, no
Resource and no Condition produces one record with the documented
defaults. -/
theorem normalizer_one_record_per_action_app :
    ((recordsOfStmt "alice" "User" "p1" "Inline"
        { effect := none, action := some (.one "s3:GetObject"),
          resource := none, condition := none }).map (fun r => r.action) =
      expand_actions (some (.one "s3:GetObject")))
    ∧ expand_actions (some (.one "s3:GetObject")) = ["s3:GetObject"]
    ∧ (∀ r ∈ recordsOfStmt "alice" "User" "p1" "Inline"
        { effect := none, action := some (.one "s3:GetObject"),
          resource := none, condition := none },
        r.effect = "Allow" ∧ r.resources = ["*"] ∧ r.condition = []) := by
  refine ⟨normalizer_one_record_per_action.2.1 "alice" "User" "p1" "Inline" _,
    normalizer_one_record_per_action.2.2.1 "s3:GetObject", ?_⟩
  intro r hr
  obtain ⟨h1, h2, h3⟩ :=
    normalizer_one_record_per_action.2.2.2.2.2.1 "alice" "User" "p1" "Inline" _ r hr
  exact ⟨h1 rfl, h2 rfl, h3 rfl⟩
